import Mathlib

/-!
Shallow embedding of the Zephyr bounded blocking byte pipe
(`src/kernel/pipe.c`).

State model: `struct k_pipe` has a caller-supplied byte buffer, its size,
ring indices `head` and `tail`, a `waiting` counter and a flag word with
the bits `PIPE_FLAG_OPEN`, `PIPE_FLAG_RESET`, `PIPE_FLAG_FULL`.  The flag
word is modelled as three booleans (`flags |= B`, `flags &= ~B`,
`flags = 0` and `flags & B` translate to field updates / reads).

Machine arithmetic: all index arithmetic in the source is on `size_t`.
Every expression of the source is exact on the values that occur, with
one exception: the sub-expression `pipe->tail - pipe->head` in
`utilization` may wrap around `2^64`, so the embedding carries the wrap
explicitly through `% SIZE_W`.

Concurrency: the public operations are modelled between observable
states, sequentially: nothing can wake a suspended caller, so a call
that reaches `z_pend_curr` is reported as `blocks`, and only the
immediate `-EAGAIN` exit of `wait_for` (timeout `K_NO_WAIT`, or
`PIPE_FLAG_RESET` set, lines 28-31) returns without suspending.  The
helper `wait_for` itself is in addition modelled with the state observed
at lock re-acquisition given explicitly, so that all its post-wake
classification paths are covered.
-/

/-- Width of `size_t` (the source is built for a 64-bit target). -/
def SIZE_W : Nat := 2 ^ 64

/-- The pipe state: `struct k_pipe` fields touched by `pipe.c`.
The two wait queues hold no threads in a quiescent state and are not
modelled beyond the `waiting` counter. -/
structure Pipe where
  buffer : Nat → Nat
  buffer_size : Nat
  head : Nat
  tail : Nat
  waiting : Nat
  flagOpen : Bool
  flagReset : Bool
  flagFull : Bool

/-- `utilization` (pipe.c lines 8-13):
`pipe->flags & PIPE_FLAG_FULL ? pipe->buffer_size
  : (pipe->tail - pipe->head + pipe->buffer_size) % pipe->buffer_size`.
The `size_t` subtraction `tail - head` wraps modulo `2^64`; it is
rendered as `(tail + SIZE_W - head) % SIZE_W` (exact for any
`head < 2^64`, which holds of every `size_t` value), the following
addition of `buffer_size` again reduces modulo `2^64`.  Note that Lean's
total `% 0 = id` convention silently totalises the modulo by
`buffer_size`, which in C is undefined when `buffer_size == 0`; see
`utilizationChecked`. -/
def utilization (p : Pipe) : Nat :=
  if p.flagFull then p.buffer_size
  else (((p.tail + SIZE_W - p.head) % SIZE_W + p.buffer_size) % SIZE_W) % p.buffer_size

/-- `utilization` with the final modulo checked: `none` exactly when the
C expression divides by zero (undefined behavior), i.e. when the
`PIPE_FLAG_FULL` shortcut is not taken and `buffer_size == 0`. -/
def utilizationChecked (p : Pipe) : Option Nat :=
  if p.flagFull then some p.buffer_size
  else if p.buffer_size = 0 then none
  else some ((((p.tail + SIZE_W - p.head) % SIZE_W + p.buffer_size) % SIZE_W) % p.buffer_size)

/-- `queue_full` (pipe.c lines 15-18). -/
def queue_full (p : Pipe) : Bool :=
  utilization p == p.buffer_size

/-- `queue_empty` (pipe.c lines 20-23). -/
def queue_empty (p : Pipe) : Bool :=
  utilization p == 0

/-- Error codes returned (negated errno values in the source). -/
inductive PipeErr where
  | EAGAIN
  | EPIPE
  | ECANCELED
  deriving DecidableEq

/-- Result of `z_impl_k_pipe_write`: a byte count, an error, or (in the
sequential model) a suspension that nothing can end. -/
inductive WriteResult where
  | ok (count : Nat)
  | err (e : PipeErr)
  | blocks
  deriving DecidableEq

/-- Result of `z_impl_k_pipe_read`; `ok` carries the bytes copied out to
`data`, whose length is the returned count. -/
inductive ReadResult where
  | ok (bytes : List Nat)
  | err (e : PipeErr)
  | blocks
  deriving DecidableEq

/-- Result of `z_impl_k_pipe_close`: `0` or `-EALREADY`. -/
inductive CloseResult where
  | OK
  | ALREADY
  deriving DecidableEq

/-- Return classification of `wait_for` (pipe.c lines 25-47):
`-EAGAIN`, `-EPIPE`, `-ECANCELED` or `0`. -/
inductive WaitCode where
  | OK
  | TRY_AGAIN
  | BROKEN_PIPE
  | CANCELED
  deriving DecidableEq

/-- `memcpy(&dst[off], src, n)` on a byte store modelled as a function:
indices `[off, off+n)` take `src[0..n)`, the rest is unchanged. -/
def memcpyAt (dst : Nat → Nat) (off : Nat) (src : List Nat) (n : Nat) : Nat → Nat :=
  fun i => if off ≤ i ∧ i < off + n then src.getD (i - off) 0 else dst i

/-- `wait_for` (pipe.c lines 25-47).  `p` is the pipe when the helper is
entered with the lock held; `noWait` is `K_TIMEOUT_EQ(timeout, K_NO_WAIT)`.
If the helper suspends (`pipe->waiting++; z_pend_curr(...)`), other
threads run; `pWake` is the pipe observed at line 34 when the lock is
re-acquired (its `waiting` still includes this thread, which decrements
it on line 35 before classifying). -/
def wait_for (p : Pipe) (noWait : Bool) (cond : Pipe → Bool) (pWake : Pipe) :
    WaitCode × Pipe :=
  if noWait || p.flagReset then (.TRY_AGAIN, p)
  else
    let q : Pipe := { pWake with waiting := pWake.waiting - 1 }
    if !q.flagOpen then (.BROKEN_PIPE, q)
    else if q.flagReset then
      if q.waiting == 0 then (.CANCELED, { q with flagReset := false })
      else (.CANCELED, q)
    else if !(cond q) then (.OK, q)
    else (.TRY_AGAIN, q)

/-- `z_impl_k_pipe_init` (pipe.c lines 57-69): bind the storage, zero the
indices and the waiting count, set `flags = PIPE_FLAG_OPEN`. -/
def k_pipe_init (buffer : Nat → Nat) (buffer_size : Nat) : Pipe :=
  { buffer := buffer
    buffer_size := buffer_size
    head := 0
    tail := 0
    waiting := 0
    flagOpen := true
    flagReset := false
    flagFull := false }

/-- `write_len` of `z_impl_k_pipe_write` (line 92):
`MIN(pipe->buffer_size - utilization(pipe), len)`.  The `size_t`
subtraction is exact because `utilization ≤ buffer_size` on every state
the theorems consider. -/
def wLen (p : Pipe) (len : Nat) : Nat :=
  min (p.buffer_size - utilization p) len

/-- `first_chunk` of `z_impl_k_pipe_write` (line 93). -/
def wFirst (p : Pipe) (len : Nat) : Nat :=
  min (p.buffer_size - p.tail) (wLen p len)

/-- `second_chunk` of `z_impl_k_pipe_write` (line 94). -/
def wSecond (p : Pipe) (len : Nat) : Nat :=
  wLen p len - wFirst p len

/-- `z_impl_k_pipe_write` (pipe.c lines 71-112), sequentially.  A call
that reaches the wait path (`queue_full`) either takes the immediate
`-EAGAIN` exit of `wait_for` or suspends with nothing to wake it
(`blocks`); otherwise it transfers, updates `tail`, and sets
`PIPE_FLAG_FULL` when the updated `tail` meets `head` (lines 104-109;
`notify_waiter` touches only the unmodelled wait queue). -/
def k_pipe_write (p : Pipe) (data : List Nat) (noWait : Bool) : WriteResult × Pipe :=
  if queue_full p then
    if noWait || p.flagReset then (.err .EAGAIN, p) else (.blocks, p)
  else if !p.flagOpen then (.err .EPIPE, p)
  else
    let write_len := wLen p data.length
    let first_chunk := wFirst p data.length
    let second_chunk := wSecond p data.length
    let buf1 := memcpyAt p.buffer p.tail data first_chunk
    let buf2 := if 0 < second_chunk then memcpyAt buf1 0 (data.drop first_chunk) second_chunk
                else buf1
    let tail2 := (p.tail + write_len) % p.buffer_size
    let full2 := if write_len != 0 && tail2 == p.head then true else p.flagFull
    (.ok write_len, { p with buffer := buf2, tail := tail2, flagFull := full2 })

/-- `read_len` of `z_impl_k_pipe_read` (line 135): `MIN(len, utilization(pipe))`. -/
def rLen (p : Pipe) (len : Nat) : Nat :=
  min len (utilization p)

/-- `first_chunk` of `z_impl_k_pipe_read` (line 136). -/
def rFirst (p : Pipe) (len : Nat) : Nat :=
  min (p.buffer_size - p.head) (rLen p len)

/-- `second_chunk` of `z_impl_k_pipe_read` (line 137). -/
def rSecond (p : Pipe) (len : Nat) : Nat :=
  rLen p len - rFirst p len

/-- `z_impl_k_pipe_read` (pipe.c lines 114-153), sequentially.  The wait
path is taken when the buffer is empty AND the pipe is open; its
sequential outcomes are the immediate `-EAGAIN` (which, being different
from `-EPIPE`, is returned by the caller, lines 125-128) or a suspension.
An empty closed pipe returns `-EPIPE` (line 130); otherwise bytes are
copied out in two chunks, `head` advances, and a non-empty transfer
clears `PIPE_FLAG_FULL` (lines 147-150). -/
def k_pipe_read (p : Pipe) (len : Nat) (noWait : Bool) : ReadResult × Pipe :=
  if utilization p == 0 && p.flagOpen then
    if noWait || p.flagReset then (.err .EAGAIN, p) else (.blocks, p)
  else if utilization p == 0 && !p.flagOpen then (.err .EPIPE, p)
  else
    let read_len := rLen p len
    let first_chunk := rFirst p len
    let second_chunk := rSecond p len
    let bytes := (List.range first_chunk).map (fun i => p.buffer (p.head + i)) ++
                 (List.range second_chunk).map (fun i => p.buffer i)
    let head2 := (p.head + read_len) % p.buffer_size
    let full2 := if read_len != 0 then false else p.flagFull
    (.ok bytes, { p with head := head2, flagFull := full2 })

/-- `z_impl_k_pipe_reset` (pipe.c lines 155-167): under the lock, zero
`head` and `tail`, OR in `PIPE_FLAG_RESET` (unconditionally — `OPEN` and
`FULL` are untouched), wake both queues (unmodelled), return 0. -/
def k_pipe_reset (p : Pipe) : Pipe :=
  { p with head := 0, tail := 0, flagReset := true }

/-- `z_impl_k_pipe_close` (pipe.c lines 169-184): under the lock, if
`OPEN` is clear return `-EALREADY` leaving the state untouched; else
`pipe->flags = 0` (clearing `OPEN`, `RESET` and `FULL`), wake both
queues (unmodelled), return 0. -/
def k_pipe_close (p : Pipe) : CloseResult × Pipe :=
  if !p.flagOpen then (.ALREADY, p)
  else (.OK, { p with flagOpen := false, flagReset := false, flagFull := false })

/-- Ring-index well-formedness: both indices lie inside the storage and
`PIPE_FLAG_FULL` is only ever set with coinciding indices. -/
def IndexInv (p : Pipe) : Prop :=
  p.head < p.buffer_size ∧ p.tail < p.buffer_size ∧
  (p.flagFull = true → p.head = p.tail)

/-- `IndexInv` together with the (trivially true of any real `size_t`
buffer size) arithmetic bound used to discharge the `2^64` wrap in
`utilization`. -/
def PipeInv (p : Pipe) : Prop :=
  IndexInv p ∧ 2 * p.buffer_size ≤ SIZE_W

/-- The byte sequence currently stored in the pipe, oldest first: the
`utilization p` bytes starting at `head`, wrapping around the ring. -/
def contents (p : Pipe) : List Nat :=
  (List.range (utilization p)).map (fun i => p.buffer ((p.head + i) % p.buffer_size))

/-- A pipe operation of a sequential trace. -/
inductive Op where
  | write (data : List Nat) (noWait : Bool)
  | read (len : Nat) (noWait : Bool)

/-- The bytes a write call got accepted: the first `count` bytes of its
input on success, nothing on an error or a (sequentially stuck) block. -/
def wAccepted (r : WriteResult) (data : List Nat) : List Nat :=
  match r with
  | .ok n => data.take n
  | _ => []

/-- The bytes a read call delivered to its caller. -/
def rDelivered (r : ReadResult) : List Nat :=
  match r with
  | .ok bs => bs
  | _ => []

/-- Run a sequence of operations; returns (concatenation of all bytes
accepted from writers, concatenation of all bytes delivered to readers,
final pipe state). -/
def runOps (p : Pipe) : List Op → List Nat × List Nat × Pipe
  | [] => ([], [], p)
  | Op.write data nw :: rest =>
    let s := k_pipe_write p data nw
    let t := runOps s.2 rest
    (wAccepted s.1 data ++ t.1, t.2.1, t.2.2)
  | Op.read len nw :: rest =>
    let s := k_pipe_read p len nw
    let t := runOps s.2 rest
    (t.1, rDelivered s.1 ++ t.2.1, t.2.2)

/-- A pipe state entering `wait_for` with neither `noWait` nor a pending
reset (used to witness the post-wake classification). -/
def wfEntry : Pipe :=
  { buffer := fun _ => 0, buffer_size := 4, head := 0, tail := 0,
    waiting := 0, flagOpen := true, flagReset := false, flagFull := false }

/-- A pipe state observed at wake-up: open, reset pending, this thread
the last waiter. -/
def wfWake : Pipe :=
  { buffer := fun _ => 0, buffer_size := 4, head := 0, tail := 0,
    waiting := 1, flagOpen := true, flagReset := true, flagFull := false }

/-! ### Basic facts about `utilization` -/

theorem utilization_of_full (p : Pipe) (h : p.flagFull = true) :
    utilization p = p.buffer_size := by
  simp [utilization, h]

theorem queue_full_of_flagFull (p : Pipe) (h : p.flagFull = true) :
    queue_full p = true := by
  simp [queue_full, utilization_of_full p h]

theorem utilization_lt (p : Pipe) (hf : p.flagFull = false) (hn : 0 < p.buffer_size) :
    utilization p < p.buffer_size := by
  rw [utilization, if_neg (by simp [hf])]
  exact Nat.mod_lt _ hn

theorem utilization_le (p : Pipe) (hn : 0 < p.buffer_size) :
    utilization p ≤ p.buffer_size := by
  cases hf : p.flagFull with
  | true => exact le_of_eq (utilization_of_full p hf)
  | false => exact le_of_lt (utilization_lt p hf hn)

/-- On any well-formed state the `size_t` wrap in `utilization` cancels:
the occupancy is the plain ring distance from `head` to `tail`. -/
theorem utilization_eq_occ (p : Pipe) (hf : p.flagFull = false)
    (hh : p.head < p.buffer_size) (ht : p.tail < p.buffer_size)
    (hw : 2 * p.buffer_size ≤ SIZE_W) :
    utilization p = (p.tail + p.buffer_size - p.head) % p.buffer_size := by
  rw [utilization, if_neg (by simp [hf])]
  rcases le_or_lt p.head p.tail with hle | hlt
  · have e1 : p.tail + SIZE_W - p.head = (p.tail - p.head) + SIZE_W := by omega
    have e2 : ((p.tail - p.head) + SIZE_W) % SIZE_W = p.tail - p.head := by
      rw [Nat.add_mod_right]
      exact Nat.mod_eq_of_lt (by omega)
    have e3 : (p.tail - p.head + p.buffer_size) % SIZE_W
        = p.tail - p.head + p.buffer_size :=
      Nat.mod_eq_of_lt (by omega)
    rw [e1, e2, e3]
    have e4 : p.tail - p.head + p.buffer_size = p.tail + p.buffer_size - p.head := by omega
    rw [e4]
  · have e1 : (p.tail + SIZE_W - p.head) % SIZE_W = p.tail + SIZE_W - p.head :=
      Nat.mod_eq_of_lt (by omega)
    have e2 : p.tail + SIZE_W - p.head + p.buffer_size
        = SIZE_W + (p.tail + p.buffer_size - p.head) := by omega
    have e3 : (p.tail + p.buffer_size - p.head) % SIZE_W
        = p.tail + p.buffer_size - p.head :=
      Nat.mod_eq_of_lt (by omega)
    rw [e1, e2, Nat.add_mod_left, e3]

/-! ### Lifecycle flag behaviour (reset / close) -/

/-- C1: `z_impl_k_pipe_reset` on a freshly initialized, quiescent pipe
(no waiters, `waiting == 0`) unconditionally ORs in `PIPE_FLAG_RESET`
and nothing ever clears it (the clearing in `wait_for` runs only in a
thread that was suspended).  The resulting quiescent state has
`waiting == 0` together with `flags.reset == true`, and the next
blocking read is short-circuited by the stale flag: `wait_for` returns
`-EAGAIN` immediately instead of suspending. -/
theorem reset_leaves_stale_reset_flag :
    (k_pipe_reset (k_pipe_init (fun _ => 0) 4)).waiting = 0 ∧
    (k_pipe_reset (k_pipe_init (fun _ => 0) 4)).flagReset = true ∧
    (k_pipe_read (k_pipe_reset (k_pipe_init (fun _ => 0) 4)) 1 false).1 = .err .EAGAIN ∧
    (k_pipe_read (k_pipe_reset (k_pipe_init (fun _ => 0) 4)) 1 true).1 = .err .EAGAIN := by
  decide

/-- C2: `z_impl_k_pipe_reset` zeroes `head` and `tail` but does not
clear `PIPE_FLAG_FULL`.  On a pipe that is exactly full the reset state
still reports occupancy `buffer_size` (not zero): an immediately
following read of 4 bytes "succeeds" with 4 stale buffer bytes instead
of finding the buffer empty, and an immediately following blocking
write of 1 ≤ capacity bytes returns `-EAGAIN` (full, and the stale
reset flag short-circuits the wait) instead of transferring. -/
theorem reset_keeps_full_flag :
    (k_pipe_write (k_pipe_init (fun _ => 0) 4) [1, 2, 3, 4] false).1 = .ok 4 ∧
    utilization (k_pipe_reset (k_pipe_write (k_pipe_init (fun _ => 0) 4) [1, 2, 3, 4] false).2) = 4 ∧
    (k_pipe_read (k_pipe_reset
        (k_pipe_write (k_pipe_init (fun _ => 0) 4) [1, 2, 3, 4] false).2) 4 true).1
      = .ok [1, 2, 3, 4] ∧
    (k_pipe_write (k_pipe_reset
        (k_pipe_write (k_pipe_init (fun _ => 0) 4) [1, 2, 3, 4] false).2) [9] false).1
      = .err .EAGAIN := by
  decide

/-- C3: on a pipe initialized with `buffer_size == 0` the very first
write or read evaluates `utilization`, whose else-branch computes
`(tail - head + 0) % 0` — a modulo by zero, undefined behavior in C
(`PIPE_FLAG_FULL` is clear after init, so the shortcut is not taken):
`utilizationChecked` is `none`.  Under Lean's total `% 0` convention the
calls do block / return `-EAGAIN` as the claim describes. -/
theorem zero_capacity_mod_zero :
    utilizationChecked (k_pipe_init (fun _ => 0) 0) = none ∧
    (k_pipe_write (k_pipe_init (fun _ => 0) 0) [1] true).1 = .err .EAGAIN ∧
    (k_pipe_write (k_pipe_init (fun _ => 0) 0) [1] false).1 = .blocks ∧
    (k_pipe_read (k_pipe_init (fun _ => 0) 0) 1 true).1 = .err .EAGAIN ∧
    (k_pipe_read (k_pipe_init (fun _ => 0) 0) 1 false).1 = .blocks := by
  decide

/-- C6: `z_impl_k_pipe_close` executes `pipe->flags = 0`, which also
clears `PIPE_FLAG_FULL`.  Closing a pipe that is exactly full (here:
capacity 2 holding the 2 bytes `[5, 6]`) therefore makes `utilization`
collapse from 2 to 0, and a subsequent read of 2 bytes returns
`-EPIPE` instead of delivering the 2 buffered bytes: the buffered data
is lost instead of being drained before EOF. -/
theorem close_full_pipe_loses_data :
    utilization (k_pipe_write (k_pipe_init (fun _ => 0) 2) [5, 6] false).2 = 2 ∧
    (k_pipe_close (k_pipe_write (k_pipe_init (fun _ => 0) 2) [5, 6] false).2).1 = .OK ∧
    utilization (k_pipe_close (k_pipe_write (k_pipe_init (fun _ => 0) 2) [5, 6] false).2).2 = 0 ∧
    (k_pipe_read (k_pipe_close
        (k_pipe_write (k_pipe_init (fun _ => 0) 2) [5, 6] false).2).2 2 false).1
      = .err .EPIPE := by
  decide

/-- C8: `z_impl_k_pipe_reset` does not check `PIPE_FLAG_OPEN`; invoking
it on a closed pipe ORs `PIPE_FLAG_RESET` into the cleared flag word,
producing a reachable quiescent state with `flags.open == false` and
`flags.reset == true`. -/
theorem reset_on_closed_pipe_sets_reset :
    (k_pipe_reset (k_pipe_close (k_pipe_init (fun _ => 0) 2)).2).flagOpen = false ∧
    (k_pipe_reset (k_pipe_close (k_pipe_init (fun _ => 0) 2)).2).flagReset = true := by
  decide

/-- C9: close is one-shot and idempotent-safe.  On an open pipe `close`
returns 0, clearing the whole flag word (`OPEN`, `RESET`, and `FULL`);
a second `close` returns `-EALREADY` and leaves the state untouched. -/
theorem close_once_then_already (p : Pipe) (hop : p.flagOpen = true) :
    (k_pipe_close p).1 = .OK ∧
    (k_pipe_close p).2.flagOpen = false ∧
    (k_pipe_close p).2.flagReset = false ∧
    (k_pipe_close p).2.flagFull = false ∧
    (k_pipe_close (k_pipe_close p).2).1 = .ALREADY ∧
    (k_pipe_close (k_pipe_close p).2).2 = (k_pipe_close p).2 := by
  simp [k_pipe_close, hop]

theorem close_once_then_already_witness :
    (k_pipe_close (k_pipe_init (fun _ => 0) 2)).1 = .OK ∧
    (k_pipe_close (k_pipe_init (fun _ => 0) 2)).2.flagOpen = false ∧
    (k_pipe_close (k_pipe_init (fun _ => 0) 2)).2.flagReset = false ∧
    (k_pipe_close (k_pipe_init (fun _ => 0) 2)).2.flagFull = false ∧
    (k_pipe_close (k_pipe_close (k_pipe_init (fun _ => 0) 2)).2).1 = .ALREADY ∧
    (k_pipe_close (k_pipe_close (k_pipe_init (fun _ => 0) 2)).2).2
      = (k_pipe_close (k_pipe_init (fun _ => 0) 2)).2 :=
  close_once_then_already (k_pipe_init (fun _ => 0) 2) rfl

/-! ### Zero-length transfers (C4) -/

/-- C4 counterexample: a zero-length write on a completely full pipe
does not return 0 — `queue_full` is checked before the length, so the
call takes the wait path and returns `-EAGAIN` (no-wait) or suspends
(blocking); symmetrically a zero-length read on an empty open pipe
returns `-EAGAIN` / suspends. -/
theorem zero_length_on_full_or_empty_counterexample :
    (k_pipe_write (k_pipe_write (k_pipe_init (fun _ => 0) 1) [7] false).2 [] true).1
      = .err .EAGAIN ∧
    (k_pipe_write (k_pipe_write (k_pipe_init (fun _ => 0) 1) [7] false).2 [] false).1
      = .blocks ∧
    (k_pipe_read (k_pipe_init (fun _ => 0) 1) 0 true).1 = .err .EAGAIN ∧
    (k_pipe_read (k_pipe_init (fun _ => 0) 1) 0 false).1 = .blocks := by
  decide

/-- C4 (amended): a zero-length write returns 0 without blocking
whenever the buffer is not full and the pipe is open, and a zero-length
read returns 0 (an empty transfer) without blocking whenever the buffer
is non-empty; the full-buffer write and empty-buffer read cases instead
take the same wait path as any other call. -/
theorem zero_length_fastpath (p : Pipe) (noWait : Bool)
    (hnf : queue_full p = false) (hop : p.flagOpen = true) :
    (k_pipe_write p [] noWait).1 = .ok 0 ∧
    (utilization p ≠ 0 → (k_pipe_read p 0 noWait).1 = .ok []) := by
  constructor
  · simp [k_pipe_write, hnf, hop, wLen]
  · intro hu
    have h0 : (utilization p == 0) = false := by simpa using hu
    simp [k_pipe_read, h0, rLen, rFirst, rSecond]

theorem zero_length_fastpath_witness :
    (k_pipe_write (k_pipe_write (k_pipe_init (fun _ => 0) 2) [7] true).2 [] true).1 = .ok 0 ∧
    (k_pipe_read (k_pipe_write (k_pipe_init (fun _ => 0) 2) [7] true).2 0 true).1 = .ok [] := by
  have h := zero_length_fastpath (k_pipe_write (k_pipe_init (fun _ => 0) 2) [7] true).2 true
    (by decide) (by decide)
  exact ⟨h.1, h.2 (by decide)⟩

/-! ### The wait helper (C7) -/

/-- C7: the classification performed by `wait_for`.  With the lock held
it returns `-EAGAIN` immediately (releasing the lock) when the timeout
is no-wait or `PIPE_FLAG_RESET` is already set.  Otherwise the thread
suspends; on resumption (state `pWake`, whose `waiting` it first
decrements) it classifies in exactly this order: `-EPIPE` if `OPEN` is
clear; else `-ECANCELED` if `RESET` is set, additionally clearing
`RESET` exactly when this thread is the last departing waiter
(`waiting == 0` after the decrement); else `0` if the waited-on
condition no longer holds; else `-EAGAIN`. -/
theorem wait_for_classification (p pWake : Pipe) (noWait : Bool) (cond : Pipe → Bool) :
    ((noWait = true ∨ p.flagReset = true) →
        wait_for p noWait cond pWake = (.TRY_AGAIN, p)) ∧
    (noWait = false → p.flagReset = false →
        (pWake.flagOpen = false →
          wait_for p noWait cond pWake
            = (.BROKEN_PIPE, { pWake with waiting := pWake.waiting - 1 })) ∧
        (pWake.flagOpen = true → pWake.flagReset = true → pWake.waiting - 1 = 0 →
          wait_for p noWait cond pWake
            = (.CANCELED, { pWake with waiting := pWake.waiting - 1, flagReset := false })) ∧
        (pWake.flagOpen = true → pWake.flagReset = true → pWake.waiting - 1 ≠ 0 →
          wait_for p noWait cond pWake
            = (.CANCELED, { pWake with waiting := pWake.waiting - 1 })) ∧
        (pWake.flagOpen = true → pWake.flagReset = false →
            cond { pWake with waiting := pWake.waiting - 1 } = false →
          wait_for p noWait cond pWake
            = (.OK, { pWake with waiting := pWake.waiting - 1 })) ∧
        (pWake.flagOpen = true → pWake.flagReset = false →
            cond { pWake with waiting := pWake.waiting - 1 } = true →
          wait_for p noWait cond pWake
            = (.TRY_AGAIN, { pWake with waiting := pWake.waiting - 1 }))) := by
  constructor
  · intro h
    rcases h with h | h <;> simp [wait_for, h]
  · intro hnw hrs
    refine ⟨fun hco => ?_, fun ho hr hw => ?_, fun ho hr hw => ?_,
      fun ho hr hc => ?_, fun ho hr hc => ?_⟩ <;>
      simp_all [wait_for]

theorem wait_for_classification_witness :
    wait_for wfEntry false queue_empty wfWake
      = (.CANCELED, { wfWake with waiting := 0, flagReset := false }) :=
  ((wait_for_classification wfEntry wfWake false queue_empty).2 rfl rfl).2.1 rfl rfl rfl

/-! ### Ring-index bounds (C10) -/

/-- C10: for a pipe initialized with positive capacity the indices stay
inside the storage and `PIPE_FLAG_FULL` is only set with `head == tail`;
the invariant is established by `init` and preserved by `write`, `read`
and `reset`.  Moreover both `memcpy` chunks of `write` stay inside the
`buffer_size` bytes of storage (`[tail, tail + first_chunk)` and
`[0, second_chunk)`), and likewise for `read` (`[head, head +
first_chunk)` and `[0, second_chunk)`). -/
theorem index_bounds_invariant (buffer : Nat → Nat) (n : Nat) (p : Pipe)
    (data : List Nat) (len : Nat) (noWait : Bool)
    (hn : 0 < n) (hp : IndexInv p) :
    IndexInv (k_pipe_init buffer n) ∧
    IndexInv (k_pipe_write p data noWait).2 ∧
    IndexInv (k_pipe_read p len noWait).2 ∧
    IndexInv (k_pipe_reset p) ∧
    p.tail + wFirst p data.length ≤ p.buffer_size ∧
    wSecond p data.length ≤ p.buffer_size ∧
    p.head + rFirst p len ≤ p.buffer_size ∧
    rSecond p len ≤ p.buffer_size := by
  obtain ⟨hh, ht, hfull⟩ := hp
  have hsz : 0 < p.buffer_size := lt_of_le_of_lt (Nat.zero_le _) hh
  refine ⟨⟨hn, hn, by simp [k_pipe_init]⟩, ?_, ?_, ⟨hsz, hsz, fun _ => rfl⟩, ?_, ?_, ?_, ?_⟩
  · rw [k_pipe_write]
    by_cases hqf : queue_full p
    · simp only [hqf, if_true]
      split <;> exact ⟨hh, ht, hfull⟩
    · have hpf : p.flagFull = false := by
        cases hf : p.flagFull with
        | true => exact absurd (queue_full_of_flagFull p hf) (by simpa using hqf)
        | false => rfl
      simp only [hqf, Bool.false_eq_true, if_false]
      split
      · exact ⟨hh, ht, hfull⟩
      · refine ⟨hh, Nat.mod_lt _ hsz, ?_⟩
        intro hfl
        simp only at hfl
        split at hfl
        · next hcond =>
          have h2 : ((p.tail + wLen p data.length) % p.buffer_size == p.head) = true :=
            ((Bool.and_eq_true _ _).mp hcond).2
          exact (beq_iff_eq.mp h2).symm
        · simp [hpf] at hfl
  · rw [k_pipe_read]
    by_cases h1 : utilization p == 0 && p.flagOpen
    · simp only [h1, if_true]
      split <;> exact ⟨hh, ht, hfull⟩
    · simp only [h1, Bool.false_eq_true, if_false]
      split
      · exact ⟨hh, ht, hfull⟩
      · refine ⟨Nat.mod_lt _ hsz, ht, ?_⟩
        intro hfl
        simp only at hfl
        split at hfl
        · exact absurd hfl (by simp)
        · next hrl =>
          have hr0 : rLen p len = 0 := by
            by_contra hne
            exact hrl (by simpa using hne)
          rw [hr0, Nat.add_zero, Nat.mod_eq_of_lt hh]
          exact hfull hfl
  · have : wFirst p data.length ≤ p.buffer_size - p.tail := Nat.min_le_left _ _
    omega
  · have : wSecond p data.length ≤ wLen p data.length := Nat.sub_le _ _
    have h2 : wLen p data.length ≤ p.buffer_size - utilization p := Nat.min_le_left _ _
    omega
  · have : rFirst p len ≤ p.buffer_size - p.head := Nat.min_le_left _ _
    omega
  · have h1 : rSecond p len ≤ rLen p len := Nat.sub_le _ _
    have h2 : rLen p len ≤ utilization p := Nat.min_le_right _ _
    have h3 : utilization p ≤ p.buffer_size := utilization_le p hsz
    omega

theorem index_bounds_invariant_witness :
    IndexInv (k_pipe_init (fun _ => 0) 2) ∧
    IndexInv (k_pipe_write (k_pipe_init (fun _ => 0) 2) [7] true).2 ∧
    IndexInv (k_pipe_read (k_pipe_init (fun _ => 0) 2) 1 true).2 ∧
    IndexInv (k_pipe_reset (k_pipe_init (fun _ => 0) 2)) ∧
    (k_pipe_init (fun _ => 0) 2).tail + wFirst (k_pipe_init (fun _ => 0) 2) 1 ≤ 2 ∧
    wSecond (k_pipe_init (fun _ => 0) 2) 1 ≤ 2 ∧
    (k_pipe_init (fun _ => 0) 2).head + rFirst (k_pipe_init (fun _ => 0) 2) 1 ≤ 2 ∧
    rSecond (k_pipe_init (fun _ => 0) 2) 1 ≤ 2 :=
  index_bounds_invariant (fun _ => 0) 2 (k_pipe_init (fun _ => 0) 2) [7] 1 true
    (by decide) ⟨by decide, by decide, by decide⟩

/-! ### Ring arithmetic and list helpers for the FIFO proof (C5) -/

theorem contents_length (p : Pipe) : (contents p).length = utilization p := by
  simp [contents]

/-- Positions `(h + i) % n`, `i < n`, are pairwise distinct. -/
theorem ring_index_inj (n h i j : Nat) (hi : i < n) (hj : j < n)
    (he : (h + i) % n = (h + j) % n) : i = j := by
  have hm : Nat.ModEq n (h + i) (h + j) := he
  have hij : Nat.ModEq n i j := Nat.ModEq.add_left_cancel' h hm
  have h2 : i % n = j % n := hij
  rwa [Nat.mod_eq_of_lt hi, Nat.mod_eq_of_lt hj] at h2

theorem pos_shift (n h u j : Nat) : ((h + u) % n + j) % n = (h + (u + j)) % n := by
  rw [Nat.mod_add_mod, Nat.add_assoc]

/-- Walking `x` slots from `h` and measuring the ring distance back from
`h` recovers `x`. -/
theorem ring_dist (n h x : Nat) (hh : h < n) (hx : x < n) :
    ((h + x) % n + n - h) % n = x := by
  rcases Nat.lt_or_ge (h + x) n with hlt | hge
  · rw [Nat.mod_eq_of_lt hlt]
    have e : h + x + n - h = x + n := by omega
    rw [e, Nat.add_mod_right]
    exact Nat.mod_eq_of_lt hx
  · have e1 : (h + x) % n = h + x - n := by
      rw [Nat.mod_eq_sub_mod hge]
      exact Nat.mod_eq_of_lt (by omega)
    have e2 : h + x - n + n - h = x := by omega
    rw [e1, e2]
    exact Nat.mod_eq_of_lt hx

/-- Ring distance between two offsets from the same origin. -/
theorem ring_dist_sub (n h u m : Nat) (hh : h < n) (hu : u ≤ n) (hm : m ≤ u) (hm0 : 0 < m) :
    ((h + u) % n + n - (h + m) % n) % n = u - m := by
  have hn : 0 < n := by omega
  rcases Nat.lt_or_ge (h + m) n with hmlt | hmge
  · rcases Nat.lt_or_ge (h + u) n with hult | huge
    · rw [Nat.mod_eq_of_lt hult, Nat.mod_eq_of_lt hmlt]
      have e : h + u + n - (h + m) = (u - m) + n := by omega
      rw [e, Nat.add_mod_right]
      exact Nat.mod_eq_of_lt (by omega)
    · have e1 : (h + u) % n = h + u - n := by
        rw [Nat.mod_eq_sub_mod huge]
        exact Nat.mod_eq_of_lt (by omega)
      rw [e1, Nat.mod_eq_of_lt hmlt]
      have e2 : h + u - n + n - (h + m) = u - m := by omega
      rw [e2]
      exact Nat.mod_eq_of_lt (by omega)
  · have huge : n ≤ h + u := by omega
    have e1 : (h + u) % n = h + u - n := by
      rw [Nat.mod_eq_sub_mod huge]
      exact Nat.mod_eq_of_lt (by omega)
    have e2 : (h + m) % n = h + m - n := by
      rw [Nat.mod_eq_sub_mod hmge]
      exact Nat.mod_eq_of_lt (by omega)
    have e3 : h + u - n + n - (h + m - n) = (u - m) + n := by omega
    rw [e1, e2, e3, Nat.add_mod_right]
    exact Nat.mod_eq_of_lt (by omega)

/-- `tail` is `utilization` slots past `head` on the ring. -/
theorem tail_eq_head_add_util (p : Pipe) (h : PipeInv p) :
    p.tail = (p.head + utilization p) % p.buffer_size := by
  obtain ⟨⟨hh, ht, hfull⟩, hw⟩ := h
  cases hf : p.flagFull with
  | true =>
    rw [utilization_of_full p hf, Nat.add_mod_right, Nat.mod_eq_of_lt hh]
    exact (hfull hf).symm
  | false =>
    rw [utilization_eq_occ p hf hh ht hw]
    rcases le_or_lt p.head p.tail with hle | hlt
    · have e1 : p.tail + p.buffer_size - p.head = (p.tail - p.head) + p.buffer_size := by
        omega
      have e2 : ((p.tail - p.head) + p.buffer_size) % p.buffer_size
          = p.tail - p.head := by
        rw [Nat.add_mod_right]
        exact Nat.mod_eq_of_lt (by omega)
      have e3 : p.head + (p.tail - p.head) = p.tail := by omega
      rw [e1, e2, e3, Nat.mod_eq_of_lt ht]
    · have e1 : (p.tail + p.buffer_size - p.head) % p.buffer_size
          = p.tail + p.buffer_size - p.head :=
        Nat.mod_eq_of_lt (by omega)
      have e2 : p.head + (p.tail + p.buffer_size - p.head) = p.tail + p.buffer_size := by
        omega
      rw [e1, e2, Nat.add_mod_right, Nat.mod_eq_of_lt ht]

theorem getD_drop (l : List Nat) (f j : Nat) :
    (l.drop f).getD j 0 = l.getD (f + j) 0 := by
  rcases Nat.lt_or_ge (f + j) l.length with hlt | hge
  · have hj : j < (l.drop f).length := by
      simp [List.length_drop]
      omega
    rw [List.getD_eq_getElem _ _ hj, List.getD_eq_getElem _ _ hlt]
    simp [List.getElem_drop]
  · have h1 : (l.drop f).length ≤ j := by
      simp [List.length_drop]
      omega
    rw [List.getD_eq_default _ _ h1, List.getD_eq_default _ _ hge]

/-- The two-chunk copy of `z_impl_k_pipe_write` (lines 96-99) writes
`data[0..wl)` at the ring positions `(t + i) % n` and leaves every other
ring position unchanged. -/
theorem write_buffer_spec (buf : Nat → Nat) (data : List Nat) (n t u wl : Nat)
    (ht : t < n) (hu : u < n) (hwl : wl ≤ n - u) :
    (∀ i, i < wl →
      (if 0 < wl - min (n - t) wl then
          memcpyAt (memcpyAt buf t data (min (n - t) wl)) 0
            (data.drop (min (n - t) wl)) (wl - min (n - t) wl)
        else memcpyAt buf t data (min (n - t) wl)) ((t + i) % n)
        = data.getD i 0) ∧
    (∀ q, q < n → (∀ i, i < wl → q ≠ (t + i) % n) →
      (if 0 < wl - min (n - t) wl then
          memcpyAt (memcpyAt buf t data (min (n - t) wl)) 0
            (data.drop (min (n - t) wl)) (wl - min (n - t) wl)
        else memcpyAt buf t data (min (n - t) wl)) q = buf q) := by
  have hwn : wl ≤ n := by omega
  set fc := min (n - t) wl with hfc_def
  have hfc1 : fc ≤ n - t := Nat.min_le_left _ _
  have hfc2 : fc ≤ wl := Nat.min_le_right _ _
  have hfc3 : fc = n - t ∨ fc = wl := by
    rcases le_total (n - t) wl with hle | hle
    · exact Or.inl (Nat.min_eq_left hle)
    · exact Or.inr (Nat.min_eq_right hle)
  have hsc_pos_fc : 0 < wl - fc → fc = n - t := by
    intro hp
    rcases hfc3 with he | he
    · exact he
    · omega
  constructor
  · intro i hi
    rcases Nat.lt_or_ge i fc with hifc | hifc
    · -- first chunk: position t + i, no wrap
      have hpos : (t + i) % n = t + i := Nat.mod_eq_of_lt (by omega)
      rw [hpos]
      have hinner : memcpyAt buf t data fc (t + i) = data.getD i 0 := by
        rw [memcpyAt, if_pos ⟨Nat.le_add_right _ _, by omega⟩]
        congr 1
        omega
      split
      · next hsc =>
        have hsct : wl - fc ≤ t := by omega
        rw [memcpyAt, if_neg (by omega)]
        exact hinner
      · exact hinner
    · -- second chunk: position wraps to i - fc
      have hsc : 0 < wl - fc := by omega
      have hfc : fc = n - t := hsc_pos_fc hsc
      have hpos : (t + i) % n = i - fc := by
        have hge : n ≤ t + i := by omega
        rw [Nat.mod_eq_sub_mod hge, Nat.mod_eq_of_lt (show t + i - n < n by omega)]
        omega
      have hcond : 0 ≤ i - fc ∧ i - fc < 0 + (wl - fc) := ⟨Nat.zero_le _, by omega⟩
      rw [if_pos hsc, hpos]
      simp only [memcpyAt]
      rw [if_pos hcond, Nat.sub_zero, getD_drop]
      congr 1
      omega
  · intro q hq hnot
    have hinner : memcpyAt buf t data fc q = buf q := by
      rw [memcpyAt, if_neg ?_]
      intro hcon
      obtain ⟨h1, h2⟩ := hcon
      refine hnot (q - t) (by omega) ?_
      have he : t + (q - t) = q := by omega
      rw [he, Nat.mod_eq_of_lt hq]
    split
    · next hsc =>
      rw [memcpyAt, if_neg ?_, hinner]
      intro hcon
      obtain ⟨h1, h2⟩ := hcon
      rw [Nat.zero_add] at h2
      refine hnot (fc + q) (by omega) ?_
      have hfc : fc = n - t := hsc_pos_fc hsc
      have he : t + (fc + q) = n + q := by omega
      rw [he, Nat.add_mod_left, Nat.mod_eq_of_lt hq]
    · exact hinner

/-- A write that reaches the transfer path (pipe open, not full) returns
`wLen` (the number of bytes accepted) and appends exactly that prefix of
`data` to the pipe contents, preserving the invariant. -/
theorem k_pipe_write_ok (p : Pipe) (data : List Nat) (noWait : Bool)
    (h : PipeInv p) (hop : p.flagOpen = true) (hqf : queue_full p = false) :
    (k_pipe_write p data noWait).1 = .ok (wLen p data.length) ∧
    PipeInv (k_pipe_write p data noWait).2 ∧
    contents (k_pipe_write p data noWait).2
      = contents p ++ data.take (wLen p data.length) := by
  obtain ⟨⟨hh, ht, hfull⟩, hw⟩ := h
  have hn : 0 < p.buffer_size := lt_of_le_of_lt (Nat.zero_le _) hh
  have hpf : p.flagFull = false := by
    cases hf : p.flagFull with
    | true => exact absurd (queue_full_of_flagFull p hf) (by simp [hqf])
    | false => rfl
  have hu_lt : utilization p < p.buffer_size := utilization_lt p hpf hn
  have hwl_le : wLen p data.length ≤ p.buffer_size - utilization p := Nat.min_le_left _ _
  have hwl_data : wLen p data.length ≤ data.length := Nat.min_le_right _ _
  have htail : p.tail = (p.head + utilization p) % p.buffer_size :=
    tail_eq_head_add_util p ⟨⟨hh, ht, hfull⟩, hw⟩
  have hres : (k_pipe_write p data noWait).1 = .ok (wLen p data.length) := by
    rw [k_pipe_write, if_neg (by simp [hqf]), if_neg (by simp [hop])]
  have hhead2 : (k_pipe_write p data noWait).2.head = p.head := by
    rw [k_pipe_write, if_neg (by simp [hqf]), if_neg (by simp [hop])]
  have hsize2 : (k_pipe_write p data noWait).2.buffer_size = p.buffer_size := by
    rw [k_pipe_write, if_neg (by simp [hqf]), if_neg (by simp [hop])]
  have htail2 : (k_pipe_write p data noWait).2.tail
      = (p.tail + wLen p data.length) % p.buffer_size := by
    rw [k_pipe_write, if_neg (by simp [hqf]), if_neg (by simp [hop])]
  have hbuf2 : (k_pipe_write p data noWait).2.buffer
      = (if 0 < wLen p data.length - min (p.buffer_size - p.tail) (wLen p data.length) then
          memcpyAt (memcpyAt p.buffer p.tail data
              (min (p.buffer_size - p.tail) (wLen p data.length))) 0
            (data.drop (min (p.buffer_size - p.tail) (wLen p data.length)))
            (wLen p data.length - min (p.buffer_size - p.tail) (wLen p data.length))
        else memcpyAt p.buffer p.tail data
            (min (p.buffer_size - p.tail) (wLen p data.length))) := by
    rw [k_pipe_write, if_neg (by simp [hqf]), if_neg (by simp [hop])]
    rfl
  have hflag2 : (k_pipe_write p data noWait).2.flagFull
      = (if wLen p data.length != 0 &&
            ((p.tail + wLen p data.length) % p.buffer_size == p.head) then true
         else p.flagFull) := by
    rw [k_pipe_write, if_neg (by simp [hqf]), if_neg (by simp [hop])]
  have ht2x : (k_pipe_write p data noWait).2.tail
      = (p.head + (utilization p + wLen p data.length)) % p.buffer_size := by
    rw [htail2]
    conv_lhs => rw [htail]
    rw [pos_shift]
  have hust : utilization (k_pipe_write p data noWait).2
      = utilization p + wLen p data.length := by
    by_cases hc : (wLen p data.length != 0 &&
        ((p.tail + wLen p data.length) % p.buffer_size == p.head)) = true
    · have hFull : (k_pipe_write p data noWait).2.flagFull = true := by
        rw [hflag2, if_pos hc]
      obtain ⟨hwl0, heqb⟩ := (Bool.and_eq_true _ _).mp hc
      have hwl0x : wLen p data.length ≠ 0 := by simpa using hwl0
      have heq2 : (p.head + (utilization p + wLen p data.length)) % p.buffer_size
          = p.head := by
        rw [← pos_shift, ← htail]
        exact beq_iff_eq.mp heqb
      have hun : utilization p + wLen p data.length = p.buffer_size := by
        by_contra hne
        have hlt : utilization p + wLen p data.length < p.buffer_size := by omega
        have h0eq : (p.head + 0) % p.buffer_size = p.head := by
          rw [Nat.add_zero]
          exact Nat.mod_eq_of_lt hh
        have hinj := ring_index_inj p.buffer_size p.head
          (utilization p + wLen p data.length) 0 hlt hn (by rw [heq2, h0eq])
        omega
      rw [utilization_of_full _ hFull, hsize2, hun]
    · have hFull : (k_pipe_write p data noWait).2.flagFull = false := by
        rw [hflag2, if_neg hc, hpf]
      have hlt : utilization p + wLen p data.length < p.buffer_size := by
        rcases Nat.lt_or_ge (utilization p + wLen p data.length) p.buffer_size with h1 | h1
        · exact h1
        · exfalso
          have heqn : utilization p + wLen p data.length = p.buffer_size := by omega
          have hwl0 : wLen p data.length ≠ 0 := by omega
          have ht2h : (p.tail + wLen p data.length) % p.buffer_size = p.head := by
            conv_lhs => rw [htail]
            rw [pos_shift, heqn, Nat.add_mod_right]
            exact Nat.mod_eq_of_lt hh
          apply hc
          rw [Bool.and_eq_true]
          exact ⟨by simpa using hwl0, beq_iff_eq.mpr ht2h⟩
      have hocc := utilization_eq_occ (k_pipe_write p data noWait).2 hFull
        (by rw [hhead2, hsize2]; exact hh)
        (by rw [htail2, hsize2]; exact Nat.mod_lt _ hn)
        (by rw [hsize2]; exact hw)
      rw [hocc, hsize2, hhead2, ht2x]
      exact ring_dist _ _ _ hh hlt
  have hInv : PipeInv (k_pipe_write p data noWait).2 := by
    refine ⟨⟨?_, ?_, ?_⟩, ?_⟩
    · rw [hhead2, hsize2]
      exact hh
    · rw [htail2, hsize2]
      exact Nat.mod_lt _ hn
    · intro hf
      rw [hflag2] at hf
      rw [hhead2, htail2]
      split at hf
      · next hcond =>
        have h2 : ((p.tail + wLen p data.length) % p.buffer_size == p.head) = true :=
          ((Bool.and_eq_true _ _).mp hcond).2
        exact (beq_iff_eq.mp h2).symm
      · rw [hpf] at hf
        exact absurd hf (by simp)
    · rw [hsize2]
      exact hw
  have hbspec := write_buffer_spec p.buffer data p.buffer_size p.tail
    (utilization p) (wLen p data.length) ht hu_lt hwl_le
  have hcont : contents (k_pipe_write p data noWait).2
      = contents p ++ data.take (wLen p data.length) := by
    apply List.ext_getElem
    · rw [contents_length, hust, List.length_append, contents_length, List.length_take,
        Nat.min_eq_left hwl_data]
    · intro i h1 h2
      have hiu : i < utilization p + wLen p data.length := by
        rwa [contents_length, hust] at h1
      rcases Nat.lt_or_ge i (utilization p) with hlt | hge
      · rw [List.getElem_append_left (by rwa [contents_length])]
        simp only [contents, List.getElem_map, List.getElem_range]
        rw [hhead2, hsize2, hbuf2]
        refine hbspec.2 ((p.head + i) % p.buffer_size) (Nat.mod_lt _ hn) ?_
        intro j hj heq
        rw [htail, pos_shift] at heq
        have hinj := ring_index_inj p.buffer_size p.head i (utilization p + j)
          (by omega) (by omega) heq
        omega
      · rw [List.getElem_append_right (by rwa [contents_length])]
        simp only [contents, List.getElem_map, List.getElem_range, List.getElem_take,
          List.length_map, List.length_range]
        rw [hhead2, hsize2, hbuf2]
        have hrw : (p.head + i) % p.buffer_size
            = (p.tail + (i - utilization p)) % p.buffer_size := by
          rw [htail, pos_shift]
          congr 2
          omega
        rw [hrw, hbspec.1 (i - utilization p) (by omega),
          List.getD_eq_getElem _ _ (show i - utilization p < data.length by omega)]
  exact ⟨hres, hInv, hcont⟩

/-- `utilization` only looks at four fields. -/
theorem utilization_congr (p q : Pipe) (h1 : p.flagFull = q.flagFull)
    (h2 : p.buffer_size = q.buffer_size) (h3 : p.head = q.head) (h4 : p.tail = q.tail) :
    utilization p = utilization q := by
  rw [utilization, utilization, h1, h2, h3, h4]

/-- A read on a non-empty pipe returns the oldest `rLen` buffered bytes
and removes them from the pipe contents, preserving the invariant. -/
theorem k_pipe_read_ok (p : Pipe) (len : Nat) (noWait : Bool)
    (h : PipeInv p) (hne : utilization p ≠ 0) :
    (k_pipe_read p len noWait).1 = .ok ((contents p).take (rLen p len)) ∧
    PipeInv (k_pipe_read p len noWait).2 ∧
    contents (k_pipe_read p len noWait).2 = (contents p).drop (rLen p len) := by
  obtain ⟨⟨hh, ht, hfull⟩, hw⟩ := h
  have hn : 0 < p.buffer_size := lt_of_le_of_lt (Nat.zero_le _) hh
  have hu_le : utilization p ≤ p.buffer_size := utilization_le p hn
  have hm_le : rLen p len ≤ utilization p := Nat.min_le_right _ _
  have htail : p.tail = (p.head + utilization p) % p.buffer_size :=
    tail_eq_head_add_util p ⟨⟨hh, ht, hfull⟩, hw⟩
  have hb0 : (utilization p == 0) = false := by simpa using hne
  have hc1 : (utilization p == 0 && p.flagOpen) = false := by rw [hb0]; rfl
  have hc2 : (utilization p == 0 && !p.flagOpen) = false := by rw [hb0]; rfl
  have hres : (k_pipe_read p len noWait).1
      = .ok ((List.range (rFirst p len)).map (fun i => p.buffer (p.head + i)) ++
             (List.range (rSecond p len)).map (fun i => p.buffer i)) := by
    rw [k_pipe_read, if_neg (by simp [hc1]), if_neg (by simp [hc2])]
  have hhead2 : (k_pipe_read p len noWait).2.head
      = (p.head + rLen p len) % p.buffer_size := by
    rw [k_pipe_read, if_neg (by simp [hc1]), if_neg (by simp [hc2])]
  have hsize2 : (k_pipe_read p len noWait).2.buffer_size = p.buffer_size := by
    rw [k_pipe_read, if_neg (by simp [hc1]), if_neg (by simp [hc2])]
  have htail2 : (k_pipe_read p len noWait).2.tail = p.tail := by
    rw [k_pipe_read, if_neg (by simp [hc1]), if_neg (by simp [hc2])]
  have hbufeq : (k_pipe_read p len noWait).2.buffer = p.buffer := by
    rw [k_pipe_read, if_neg (by simp [hc1]), if_neg (by simp [hc2])]
  have hflag2 : (k_pipe_read p len noWait).2.flagFull
      = (if rLen p len != 0 then false else p.flagFull) := by
    rw [k_pipe_read, if_neg (by simp [hc1]), if_neg (by simp [hc2])]
  have hrf_le : rFirst p len ≤ p.buffer_size - p.head := Nat.min_le_left _ _
  have hrf_le2 : rFirst p len ≤ rLen p len := Nat.min_le_right _ _
  have hsum : rFirst p len + rSecond p len = rLen p len := by
    have := hrf_le2
    unfold rSecond
    omega
  have hrs_fc : 0 < rSecond p len → rFirst p len = p.buffer_size - p.head := by
    intro hp
    rcases le_total (p.buffer_size - p.head) (rLen p len) with hle | hle
    · exact Nat.min_eq_left hle
    · have h2 : rFirst p len = rLen p len := Nat.min_eq_right hle
      unfold rSecond at hp
      omega
  have hbytes : (List.range (rFirst p len)).map (fun i => p.buffer (p.head + i)) ++
        (List.range (rSecond p len)).map (fun i => p.buffer i)
      = (contents p).take (rLen p len) := by
    apply List.ext_getElem
    · rw [List.length_append, List.length_map, List.length_range, List.length_map,
        List.length_range, List.length_take, contents_length, Nat.min_eq_left hm_le]
      omega
    · intro i h1 h2
      have hi : i < rLen p len := by
        rw [List.length_append, List.length_map, List.length_range, List.length_map,
          List.length_range] at h1
        omega
      rcases Nat.lt_or_ge i (rFirst p len) with hlt | hge
      · rw [List.getElem_append_left (by simpa using hlt)]
        simp only [List.getElem_map, List.getElem_range, List.getElem_take, contents]
        rw [Nat.mod_eq_of_lt (show p.head + i < p.buffer_size by omega)]
      · rw [List.getElem_append_right (by simpa using hge)]
        simp only [List.getElem_map, List.getElem_range, List.getElem_take, contents,
          List.length_map, List.length_range]
        have hrs : 0 < rSecond p len := by omega
        have hrf : rFirst p len = p.buffer_size - p.head := hrs_fc hrs
        have hpos : (p.head + i) % p.buffer_size = i - rFirst p len := by
          have hgen : p.buffer_size ≤ p.head + i := by omega
          rw [Nat.mod_eq_sub_mod hgen,
            Nat.mod_eq_of_lt (show p.head + i - p.buffer_size < p.buffer_size by omega)]
          omega
        rw [hpos]
  have hust : utilization (k_pipe_read p len noWait).2
      = utilization p - rLen p len := by
    by_cases hm0 : rLen p len = 0
    · have hFull : (k_pipe_read p len noWait).2.flagFull = p.flagFull := by
        rw [hflag2, hm0]
        rfl
      have hh2 : (k_pipe_read p len noWait).2.head = p.head := by
        rw [hhead2, hm0, Nat.add_zero, Nat.mod_eq_of_lt hh]
      rw [hm0, Nat.sub_zero]
      exact utilization_congr _ _ hFull hsize2 hh2 htail2
    · have hFull : (k_pipe_read p len noWait).2.flagFull = false := by
        rw [hflag2, if_pos (by simpa using hm0)]
      have hocc := utilization_eq_occ (k_pipe_read p len noWait).2 hFull
        (by rw [hhead2, hsize2]; exact Nat.mod_lt _ hn)
        (by rw [htail2, hsize2]; exact ht)
        (by rw [hsize2]; exact hw)
      rw [hocc, hsize2, hhead2, htail2]
      conv_lhs => rw [htail]
      exact ring_dist_sub _ _ _ _ hh hu_le hm_le (by omega)
  have hInv : PipeInv (k_pipe_read p len noWait).2 := by
    refine ⟨⟨?_, ?_, ?_⟩, ?_⟩
    · rw [hhead2, hsize2]
      exact Nat.mod_lt _ hn
    · rw [htail2, hsize2]
      exact ht
    · intro hf
      rw [hflag2] at hf
      split at hf
      · exact absurd hf (by simp)
      · next hm0 =>
        have hm0x : rLen p len = 0 := by simpa using hm0
        rw [hhead2, htail2, hm0x, Nat.add_zero, Nat.mod_eq_of_lt hh]
        exact hfull hf
    · rw [hsize2]
      exact hw
  have hcont : contents (k_pipe_read p len noWait).2
      = (contents p).drop (rLen p len) := by
    apply List.ext_getElem
    · rw [contents_length, hust, List.length_drop, contents_length]
    · intro i h1 h2
      simp only [contents, List.getElem_map, List.getElem_range, List.getElem_drop,
        List.length_map, List.length_range]
      rw [hbufeq, hhead2, hsize2, pos_shift]
  refine ⟨?_, hInv, hcont⟩
  rw [hres, hbytes]

/-- One write step: the pipe invariant is preserved and the accepted
bytes (empty on error/block) are appended to the contents. -/
theorem k_pipe_write_step (p : Pipe) (data : List Nat) (noWait : Bool) (h : PipeInv p) :
    PipeInv (k_pipe_write p data noWait).2 ∧
    contents (k_pipe_write p data noWait).2
      = contents p ++ wAccepted (k_pipe_write p data noWait).1 data := by
  by_cases hqf : queue_full p = true
  · have hred : k_pipe_write p data noWait
        = (if noWait || p.flagReset then (.err .EAGAIN, p) else (.blocks, p)) := by
      rw [k_pipe_write, if_pos hqf]
    rw [hred]
    split
    · exact ⟨h, by simp [wAccepted]⟩
    · exact ⟨h, by simp [wAccepted]⟩
  · have hqf2 : queue_full p = false := by simpa using hqf
    by_cases hop : p.flagOpen = true
    · obtain ⟨h1, h2, h3⟩ := k_pipe_write_ok p data noWait h hop hqf2
      refine ⟨h2, ?_⟩
      rw [h3, h1]
      rfl
    · have hopf : p.flagOpen = false := by simpa using hop
      have hred : k_pipe_write p data noWait = (.err .EPIPE, p) := by
        rw [k_pipe_write, if_neg (by simp [hqf2]), if_pos (by simp [hopf])]
      rw [hred]
      exact ⟨h, by simp [wAccepted]⟩

/-- One read step: the pipe invariant is preserved and the contents
split as delivered bytes followed by the remaining contents. -/
theorem k_pipe_read_step (p : Pipe) (len : Nat) (noWait : Bool) (h : PipeInv p) :
    PipeInv (k_pipe_read p len noWait).2 ∧
    contents p
      = rDelivered (k_pipe_read p len noWait).1 ++ contents (k_pipe_read p len noWait).2 := by
  by_cases hne : utilization p = 0
  · have hb0 : (utilization p == 0) = true := by simpa using hne
    by_cases hop : p.flagOpen = true
    · have hred : k_pipe_read p len noWait
          = (if noWait || p.flagReset then (.err .EAGAIN, p) else (.blocks, p)) := by
        rw [k_pipe_read, if_pos (by simp [hb0, hop])]
      rw [hred]
      split
      · exact ⟨h, by simp [rDelivered]⟩
      · exact ⟨h, by simp [rDelivered]⟩
    · have hopf : p.flagOpen = false := by simpa using hop
      have hred : k_pipe_read p len noWait = (.err .EPIPE, p) := by
        rw [k_pipe_read, if_neg (by simp [hb0, hopf]), if_pos (by simp [hb0, hopf])]
      rw [hred]
      exact ⟨h, by simp [rDelivered]⟩
  · obtain ⟨h1, h2, h3⟩ := k_pipe_read_ok p len noWait h hne
    refine ⟨h2, ?_⟩
    rw [h1, h3]
    simp [rDelivered]

/-- Trace-level conservation: over any sequence of operations, starting
contents plus all accepted write bytes equals all delivered read bytes
plus final contents — in order. -/
theorem runOps_conservation (ops : List Op) (p : Pipe) (h : PipeInv p) :
    PipeInv (runOps p ops).2.2 ∧
    contents p ++ (runOps p ops).1
      = (runOps p ops).2.1 ++ contents (runOps p ops).2.2 := by
  induction ops generalizing p with
  | nil => exact ⟨h, by simp [runOps]⟩
  | cons op rest ih =>
    cases op with
    | write data nw =>
      obtain ⟨hi, hc⟩ := k_pipe_write_step p data nw h
      obtain ⟨hi2, hc2⟩ := ih (k_pipe_write p data nw).2 hi
      constructor
      · simpa [runOps] using hi2
      · simp only [runOps]
        rw [← List.append_assoc, ← hc]
        exact hc2
    | read len nw =>
      obtain ⟨hi, hc⟩ := k_pipe_read_step p len nw h
      obtain ⟨hi2, hc2⟩ := ih (k_pipe_read p len nw).2 hi
      constructor
      · simpa [runOps] using hi2
      · simp only [runOps]
        rw [hc, List.append_assoc, hc2, List.append_assoc]

/-- C5 counterexample (the `N = 0` instance of the claim): the empty
sequence has length `0 ≤ capacity` and a single write of it returns 0,
but the following read of 0 bytes on the still-empty pipe does not
return 0 — it takes the wait path and returns `-EAGAIN` (no-wait) or
suspends (blocking). -/
theorem roundtrip_zero_length_counterexample :
    (k_pipe_write (k_pipe_init (fun _ => 0) 2) [] true).1 = .ok 0 ∧
    (k_pipe_read (k_pipe_write (k_pipe_init (fun _ => 0) 2) [] true).2 0 true).1
      = .err .EAGAIN ∧
    (k_pipe_read (k_pipe_write (k_pipe_init (fun _ => 0) 2) [] false).2 0 false).1
      = .blocks := by
  decide

/-- C5 (amended to `1 ≤ N`): a single write of `N` bytes
(`1 ≤ N ≤ capacity`) into an empty open pipe accepts all `N` bytes and a
following read of `N` bytes returns exactly those bytes in order —
including when the transfer wraps around the ring (any `head = tail`
position is allowed); and over any sequence of operations from an empty
pipe the concatenation of all bytes delivered to readers is a prefix of
the concatenation of all bytes accepted from writers. -/
theorem fifo_roundtrip_and_prefix :
    (∀ (p : Pipe) (data : List Nat) (noWait nw2 : Bool),
      PipeInv p → p.flagOpen = true → p.flagFull = false → p.head = p.tail →
      0 < data.length → data.length ≤ p.buffer_size →
      (k_pipe_write p data noWait).1 = .ok data.length ∧
      (k_pipe_read (k_pipe_write p data noWait).2 data.length nw2).1 = .ok data) ∧
    (∀ (p : Pipe) (ops : List Op), PipeInv p → contents p = [] →
      ∃ rem, (runOps p ops).2.1 ++ rem = (runOps p ops).1) := by
  constructor
  · intro p data noWait nw2 h hop hfl hht hpos hlen
    obtain ⟨⟨hh, ht, hfull⟩, hw⟩ := h
    have hn : 0 < p.buffer_size := lt_of_le_of_lt (Nat.zero_le _) hh
    have hu0 : utilization p = 0 := by
      rw [utilization_eq_occ p hfl hh ht hw, hht]
      have e : p.tail + p.buffer_size - p.tail = p.buffer_size := by omega
      rw [e, Nat.mod_self]
    have hqf : queue_full p = false := by
      rw [queue_full, hu0]
      simp only [beq_eq_false_iff_ne]
      omega
    have hwl : wLen p data.length = data.length := by
      rw [wLen, hu0, Nat.sub_zero]
      exact Nat.min_eq_right hlen
    obtain ⟨h1, h2, h3⟩ := k_pipe_write_ok p data noWait ⟨⟨hh, ht, hfull⟩, hw⟩ hop hqf
    have hcontp : contents p = [] := by
      rw [contents, hu0]
      rfl
    have hcont2 : contents (k_pipe_write p data noWait).2 = data := by
      rw [h3, hcontp, hwl, List.nil_append, List.take_length]
    have hu2 : utilization (k_pipe_write p data noWait).2 = data.length := by
      rw [← contents_length, hcont2]
    constructor
    · rw [h1, hwl]
    · obtain ⟨r1, r2, r3⟩ := k_pipe_read_ok (k_pipe_write p data noWait).2
        data.length nw2 h2 (by omega)
      rw [r1]
      have hm : rLen (k_pipe_write p data noWait).2 data.length = data.length := by
        rw [rLen, hu2]
        exact Nat.min_self _
      rw [hm, hcont2, List.take_length]
  · intro p ops h hc0
    obtain ⟨hi, hcons⟩ := runOps_conservation ops p h
    refine ⟨contents (runOps p ops).2.2, ?_⟩
    rw [← hcons, hc0, List.nil_append]

theorem fifo_roundtrip_and_prefix_witness :
    (k_pipe_write (k_pipe_init (fun _ => 0) 2) [3, 4] true).1 = .ok 2 ∧
    (k_pipe_read (k_pipe_write (k_pipe_init (fun _ => 0) 2) [3, 4] true).2 2 true).1
      = .ok [3, 4] ∧
    ∃ rem,
      (runOps (k_pipe_init (fun _ => 0) 2) [Op.write [3, 4] true, Op.read 1 true]).2.1 ++ rem
        = (runOps (k_pipe_init (fun _ => 0) 2) [Op.write [3, 4] true, Op.read 1 true]).1 := by
  have h1 := fifo_roundtrip_and_prefix.1 (k_pipe_init (fun _ => 0) 2) [3, 4] true true
    ⟨⟨by decide, by decide, by decide⟩, by decide⟩ rfl rfl rfl (by decide) (by decide)
  have h2 := fifo_roundtrip_and_prefix.2 (k_pipe_init (fun _ => 0) 2)
    [Op.write [3, 4] true, Op.read 1 true]
    ⟨⟨by decide, by decide, by decide⟩, by decide⟩ (by decide)
  exact ⟨h1.1, h1.2, h2⟩
